import Mathlib

/-! Verification of the Aegean source finder (`aegean.py`) against its
natural-language specification.

The relevant routines of `aegean.py` are shallow-embedded below.

Modelling conventions:
* Python floats are modelled as exact rationals (`ℚ`); float rounding is not
  modelled, and a decimal literal of the source (`1.34896`, `0.8`, ...) is
  read as the exact rational it denotes.
* A possibly-NaN float value is an `Option ℚ`, `none` standing for NaN (and
  for the other non-finite float results, which the statements below avoid by
  hypothesis).
* Library constants and transcendental functions used by the source
  (`np.pi`, `math.cos(radians(.))`, `np.log`, `np.sqrt`, `scipy.erf`,
  `math.sqrt(2)`, the FWHM/sigma conversion constants) are parameters,
  collected in `RConsts`: theorems hold for every value of these parameters,
  and concrete rational stand-ins are used to evaluate closed examples.
* External collaborators that are out of scope for the spec (the WCS layer:
  `get_pixbeam`, `pix2sky_vec`, ...) enter only through their results, passed
  as parameters (`PixBeam`, axis lengths, ...).
-/

/-- Model of the real-valued library constants and functions of the source:
`pi` for `np.pi`, `fwhm2cc`/`cc2fwhm` for the module constants
`1/(2*sqrt(2*log(2)))` and its inverse, `sqrt2` for `math.sqrt(2)`,
`cosd x`/`sind x` for `cos(radians(x))`/`sin(radians(x))`, `log`, `sqrt`,
`erf` for `np.log`, `np.sqrt`, `scipy.special.erf` on the arguments where
those are finite. -/
structure RConsts where
  pi : ℚ
  fwhm2cc : ℚ
  cc2fwhm : ℚ
  sqrt2 : ℚ
  cosd : ℚ → ℚ
  sind : ℚ → ℚ
  log : ℚ → ℚ
  sqrt : ℚ → ℚ
  erf : ℚ → ℚ

/-- A beam in pixel units, as returned by `get_pixbeam` (WCS collaborator). -/
structure PixBeam where
  a : ℚ
  b : ℚ
  pa : ℚ
deriving DecidableEq

/-- Fit flag `FITERRSMALL` (island has fewer than 4 finite pixels). -/
def FITERRSMALL : ℕ := 1

/-- Fit flag `FITERR` (fitter returned no covariance). -/
def FITERR : ℕ := 2

/-- Fit flag `FIXED2PSF` (shape frozen to the pixel beam). -/
def FIXED2PSF : ℕ := 4

/-- Fit flag `NOTFIT` (parameters are estimates only). -/
def NOTFIT : ℕ := 16

/-! ## Background / RMS estimation: `estimate_background` (aegean.py 838-854) -/

/-- The finite pixels of a flattened tile, in order:
`np.extract(data==data, data).ravel()`. -/
def finitePixels (data : List (Option ℚ)) : List ℚ := data.filterMap id

/-- `estimate_background` (aegean.py 838-854).  The tile is passed flattened
in row-major order; `none` is the `(NaN, NaN)` return.  `pixels.sort()` sorts
ascending; `pixels[pixels.size/4]`, `[pixels.size/2]`, `[pixels.size/4*3]`
are the quartile picks (Python 2 integer division); the result is
`(p50, (p75 - p25) / 1.34896)`. -/
def estimate_background (data : List (Option ℚ)) : Option (ℚ × ℚ) :=
  let pixels := finitePixels data
  if pixels.length < 4 then none
  else
    let sorted := pixels.insertionSort (· ≤ ·)
    let p25 := sorted.getD (pixels.length / 4) 0
    let p50 := sorted.getD (pixels.length / 2) 0
    let p75 := sorted.getD (pixels.length / 4 * 3) 0
    some (p50, (p75 - p25) / (134896 / 100000))

/-! ## Shape normalisation: `fix_shape` and `pa_limit` (aegean.py 880-900) -/

/-- First `while` loop of `pa_limit` (aegean.py 896-897):
`while pa <= -90: pa += 180`. -/
def pa_wrap_up (pa : ℚ) : ℚ :=
  if h : pa ≤ -90 then pa_wrap_up (pa + 180) else pa
termination_by (⌈(-90 - pa) / 180⌉ + 1).toNat
decreasing_by
  have hx : (0 : ℚ) ≤ (-90 - pa) / 180 := by
    apply div_nonneg (by linarith) (by norm_num)
  have hk : (0 : ℤ) ≤ ⌈(-90 - pa) / 180⌉ := Int.ceil_nonneg hx
  have he : (-90 - (pa + 180)) / 180 = (-90 - pa) / 180 - 1 := by ring
  rw [he, Int.ceil_sub_one]
  omega

/-- Second `while` loop of `pa_limit` (aegean.py 898-899):
`while pa > 90: pa -= 180`. -/
def pa_wrap_down (pa : ℚ) : ℚ :=
  if h : 90 < pa then pa_wrap_down (pa - 180) else pa
termination_by ⌈(pa - 90) / 180⌉.toNat
decreasing_by
  have hx : (0 : ℚ) < (pa - 90) / 180 := by
    apply div_pos (by linarith) (by norm_num)
  have hk : (0 : ℤ) < ⌈(pa - 90) / 180⌉ := Int.ceil_pos.mpr hx
  have he : (pa - 180 - 90) / 180 = (pa - 90) / 180 - 1 := by ring
  rw [he, Int.ceil_sub_one]
  omega

/-- `pa_limit` (aegean.py 891-900): wrap a position angle into `(-90, 90]`
by the two sequential while loops. -/
def pa_limit (pa : ℚ) : ℚ := pa_wrap_down (pa_wrap_up pa)

/-- The fields of an `OutputSource` record manipulated by `fix_shape`
and the subsequent `pa` normalisation in `fit_island` (aegean.py 1148-1151). -/
structure FitSrc where
  a : ℚ
  b : ℚ
  err_a : ℚ
  err_b : ℚ
  pa : ℚ
deriving DecidableEq

/-- `fix_shape` (aegean.py 880-889): when `a < b`, swap `a` with `b` and
`err_a` with `err_b`, and add 90 degrees to `pa`. -/
def fix_shape (s : FitSrc) : FitSrc :=
  if s.a < s.b then
    { s with a := s.b, b := s.a, err_a := s.err_b, err_b := s.err_a, pa := s.pa + 90 }
  else s

/-- Lines 1148-1151 of `fit_island`: `fix_shape(source)` followed by
`source.pa = pa_limit(source.pa)`. -/
def shape_step (s : FitSrc) : FitSrc :=
  let t := fix_shape s
  { t with pa := pa_limit t.pa }

theorem pa_wrap_up_gt (pa : ℚ) : -90 < pa_wrap_up pa := by
  induction pa using pa_wrap_up.induct with
  | case1 pa h ih => rw [pa_wrap_up, dif_pos h]; exact ih
  | case2 pa h => rw [pa_wrap_up, dif_neg h]; linarith

theorem pa_wrap_down_le (pa : ℚ) : pa_wrap_down pa ≤ 90 := by
  induction pa using pa_wrap_down.induct with
  | case1 pa h ih => rw [pa_wrap_down, dif_pos h]; exact ih
  | case2 pa h => rw [pa_wrap_down, dif_neg h]; linarith

theorem pa_wrap_down_gt : ∀ pa : ℚ, -90 < pa → -90 < pa_wrap_down pa := by
  intro pa
  induction pa using pa_wrap_down.induct with
  | case1 pa h ih =>
    intro _
    rw [pa_wrap_down, dif_pos h]
    exact ih (by linarith)
  | case2 pa h =>
    intro hgt
    rw [pa_wrap_down, dif_neg h]
    exact hgt

theorem pa_limit_mem (pa : ℚ) : -90 < pa_limit pa ∧ pa_limit pa ≤ 90 :=
  ⟨pa_wrap_down_gt _ (pa_wrap_up_gt pa), pa_wrap_down_le _⟩

/-! ## Fit-error post-processing in `fit_island` (aegean.py 1092-1118) -/

/-- Lines 1092-1094 of `fit_island`: if `mp.perror is None`, replace it with
a zero vector of the same length as the parameter vector and remember the
error (`err=True`). -/
def perror_or_zeros (perror : Option (List ℚ)) (nparams : ℕ) : List ℚ × Bool :=
  match perror with
  | none => (List.replicate nparams 0, true)
  | some l => (l, false)

/-- Lines 1100-1103 of `fit_island`: any parameter error that is exactly 0
is converted to -1. -/
def remap_zero_errors (l : List ℚ) : List ℚ :=
  l.map (fun v => if v = 0 then -1 else v)

/-- The composite error handling of `fit_island` (aegean.py 1092-1103):
the effective parameter-error vector and the fitting-error flag. -/
def fit_errors (perror : Option (List ℚ)) (nparams : ℕ) : List ℚ × Bool :=
  let pe := perror_or_zeros perror nparams
  (remap_zero_errors pe.1, pe.2)

/-- Lines 1113-1118 of `fit_island`: each component's flag word ORs `FITERR`
(when the fit produced no covariance) into the flags stored on the
component's `pa` parameter record. -/
def src_flags_of (err : Bool) (paFlags : ℕ) : ℕ :=
  (if err then FITERR else 0) ||| paFlags

theorem remap_zero_errors_ne_zero (l : List ℚ) :
    ∀ v ∈ remap_zero_errors l, v ≠ 0 := by
  intro v hv
  simp only [remap_zero_errors, List.mem_map] at hv
  obtain ⟨u, _, rfl⟩ := hv
  split_ifs with h
  · norm_num
  · exact h

/-- C4: in `fit_island`, a missing covariance (`perror is None`) yields a
zero error vector and sets the error flag, which in turn sets the `FITERR`
bit (bit 1) on every component's flag word; in every case a parameter error
of exactly 0 is remapped to -1, so the processed error vector never contains
a 0. -/
theorem c4_perror_zero_remap (perror : Option (List ℚ)) (n : ℕ) :
    ((fit_errors perror n).2 = true ↔ perror = none)
    ∧ (perror = none →
        perror_or_zeros perror n = (List.replicate n 0, true)
        ∧ fit_errors perror n = (List.replicate n (-1), true)
        ∧ ∀ paFlags : ℕ,
            Nat.testBit (src_flags_of (fit_errors perror n).2 paFlags) 1 = true)
    ∧ (∀ l, perror = some l → (fit_errors perror n).1 = remap_zero_errors l)
    ∧ (∀ v ∈ (fit_errors perror n).1, v ≠ 0) := by
  refine ⟨?_, ?_, ?_, ?_⟩
  · cases perror <;> simp [fit_errors, perror_or_zeros]
  · rintro rfl
    refine ⟨rfl, ?_, ?_⟩
    · simp [fit_errors, perror_or_zeros, remap_zero_errors, List.map_replicate]
    · intro paFlags
      have h2 : (fit_errors (none : Option (List ℚ)) n).2 = true := rfl
      rw [h2]
      have hs : src_flags_of true paFlags = 2 ||| paFlags := by
        simp [src_flags_of, FITERR]
      rw [hs, Nat.testBit_or]
      have h21 : Nat.testBit 2 1 = true := by decide
      rw [h21, Bool.true_or]
  · rintro l rfl
    rfl
  · intro v hv
    exact remap_zero_errors_ne_zero _ v hv

/-- C1: for a tile, `estimate_background` sorts the finite pixels ascending
and returns background = the median (index `n/2`) and
rms = (p75 - p25)/1.34896 with p25, p75 at indices `n/4` and `3*(n/4)`
(Python 2 integer division); with fewer than 4 finite pixels it returns
`(NaN, NaN)` (modelled `none`). -/
theorem c1_estimate_background_spec (data : List (Option ℚ)) (sorted : List ℚ)
    (hperm : sorted.Perm (finitePixels data))
    (hsort : sorted.Sorted (· ≤ ·)) :
    (estimate_background data = none ↔ sorted.length < 4)
    ∧ (4 ≤ sorted.length →
        estimate_background data =
          some (sorted.getD (sorted.length / 2) 0,
            (sorted.getD (3 * (sorted.length / 4)) 0
              - sorted.getD (sorted.length / 4) 0) / (134896 / 100000))) := by
  have hlen : sorted.length = (finitePixels data).length := hperm.length_eq
  have hms : (finitePixels data).insertionSort (· ≤ ·) = sorted :=
    List.eq_of_perm_of_sorted ((List.perm_insertionSort _ _).trans hperm.symm)
      (List.sorted_insertionSort _ _) hsort
  by_cases h4 : (finitePixels data).length < 4
  · have hnone : estimate_background data = none := by
      unfold estimate_background
      rw [if_pos h4]
    refine ⟨⟨fun _ => by rw [hlen]; exact h4, fun _ => hnone⟩, fun hge => ?_⟩
    rw [hlen] at hge
    omega
  · have hsome : estimate_background data =
        some (((finitePixels data).insertionSort (· ≤ ·)).getD
            ((finitePixels data).length / 2) 0,
          (((finitePixels data).insertionSort (· ≤ ·)).getD
              ((finitePixels data).length / 4 * 3) 0
            - ((finitePixels data).insertionSort (· ≤ ·)).getD
              ((finitePixels data).length / 4) 0) / (134896 / 100000)) := by
      unfold estimate_background
      rw [if_neg h4]
    rw [hms] at hsome
    refine ⟨⟨fun hn => ?_, fun hlt => absurd (hlen ▸ hlt) h4⟩, fun _ => ?_⟩
    · rw [hsome] at hn
      exact absurd hn (by simp)
    · rw [hlen]
      have h34 : 3 * ((finitePixels data).length / 4)
          = (finitePixels data).length / 4 * 3 := Nat.mul_comm _ _
      rw [h34]
      exact hsome

/-- Witness for C1 at the concrete tile `[3, 1, 4, 1]` (all finite):
sorted ascending it is `[1, 1, 3, 4]`, the median pick is 3, and the rms is
`(4 - 1)/1.34896`. -/
theorem c1_estimate_background_eval :
    ([1, 1, 3, 4] : List ℚ).Perm (finitePixels [some 3, some 1, some 4, some 1])
    ∧ ([1, 1, 3, 4] : List ℚ).Sorted (· ≤ ·)
    ∧ estimate_background [some 3, some 1, some 4, some 1]
        = some (3, 3 / (134896 / 100000))
    ∧ (estimate_background [some 3, some 1, some 4, some 1] = none
        ↔ ([1, 1, 3, 4] : List ℚ).length < 4) :=
  ⟨by decide, by decide,
    by norm_num [estimate_background, finitePixels, List.insertionSort,
      List.orderedInsert, List.filterMap_cons, List.getD_cons_zero,
      List.getD_cons_succ],
    (c1_estimate_background_spec [some 3, some 1, some 4, some 1] [1, 1, 3, 4]
      (by decide) (by decide)).1⟩

/-- C2: after `fix_shape` and the `pa_limit` wrap (as applied to every
component in `fit_island`), the record satisfies `a ≥ b ≥ 0` (given the
sky axis magnitudes are nonnegative) and `-90 < pa ≤ 90`; `fix_shape` swaps
`a`/`b` and `err_a`/`err_b` and adds 90 to `pa` exactly when `a < b`. -/
theorem c2_component_shape_invariant (s : FitSrc) (ha : 0 ≤ s.a) (hb : 0 ≤ s.b) :
    ((shape_step s).b ≤ (shape_step s).a ∧ 0 ≤ (shape_step s).b)
    ∧ (-90 < (shape_step s).pa ∧ (shape_step s).pa ≤ 90)
    ∧ (s.a < s.b → fix_shape s =
        { a := s.b, b := s.a, err_a := s.err_b, err_b := s.err_a, pa := s.pa + 90 })
    ∧ (s.b ≤ s.a → fix_shape s = s) := by
  have hfix : (fix_shape s).b ≤ (fix_shape s).a ∧ 0 ≤ (fix_shape s).b := by
    unfold fix_shape
    split_ifs with h
    · exact ⟨le_of_lt h, ha⟩
    · exact ⟨le_of_not_lt h, hb⟩
  refine ⟨?_, ?_, fun h => ?_, fun h => ?_⟩
  · simpa [shape_step] using hfix
  · simpa [shape_step] using pa_limit_mem (fix_shape s).pa
  · unfold fix_shape
    rw [if_pos h]
  · unfold fix_shape
    rw [if_neg (not_lt.mpr h)]

/-- Witness for C2 at the concrete record `(a, b, err_a, err_b, pa) =
(1, 2, 3, 4, 0)`: the axes and errors swap, `pa` becomes 90, and the
invariant holds. -/
theorem c2_component_shape_eval :
    (0 : ℚ) ≤ 1 ∧ (0 : ℚ) ≤ 2
    ∧ shape_step ⟨1, 2, 3, 4, 0⟩ = ⟨2, 1, 4, 3, 90⟩
    ∧ (-90 < (shape_step ⟨1, 2, 3, 4, 0⟩).pa ∧ (shape_step ⟨1, 2, 3, 4, 0⟩).pa ≤ 90) :=
  ⟨by norm_num, by norm_num,
    by
      have h1 : pa_wrap_up (90 : ℚ) = 90 := by
        rw [pa_wrap_up, dif_neg (by norm_num)]
      have h2 : pa_wrap_down (90 : ℚ) = 90 := by
        rw [pa_wrap_down, dif_neg (by norm_num)]
      norm_num [shape_step, fix_shape, pa_limit, h1, h2],
    (c2_component_shape_invariant ⟨1, 2, 3, 4, 0⟩ (by norm_num) (by norm_num)).2.1⟩

/-! ## Island-integrated record of `fit_island` (aegean.py 1199-1247)

NaN-propagating models of the float operations involved: `none` is NaN.
`logO` also returns `none` at 0 (where `np.log` gives `-inf`) and `divO`
at a zero divisor (where numpy gives `inf`/NaN): the non-finite cases are
conflated, and the theorems below keep away from them by hypothesis. -/

/-- Float division with NaN/zero-divisor propagation. -/
def divO : Option ℚ → Option ℚ → Option ℚ
  | some x, some y => if y = 0 then none else some (x / y)
  | _, _ => none

/-- Float multiplication with NaN propagation. -/
def mulO : Option ℚ → Option ℚ → Option ℚ
  | some x, some y => some (x * y)
  | _, _ => none

/-- Float negation (`-1*x`) with NaN propagation. -/
def negO : Option ℚ → Option ℚ := Option.map (fun x => -x)

/-- `np.log` through a model `f` of the logarithm on positive arguments. -/
def logO (f : ℚ → ℚ) : Option ℚ → Option ℚ
  | some x => if 0 < x then some (f x) else none
  | none => none

/-- `np.sqrt` through a model `f` of the square root on nonnegative
arguments; `np.sqrt` of a negative number is NaN. -/
def sqrtO (f : ℚ → ℚ) : Option ℚ → Option ℚ
  | some x => if 0 ≤ x then some (f x) else none
  | none => none

/-- `scipy.special.erf` through a model `f`, with NaN propagation. -/
def erfO (f : ℚ → ℚ) : Option ℚ → Option ℚ := Option.map f

/-- Squaring (`**2`) with NaN propagation. -/
def sqO : Option ℚ → Option ℚ := Option.map (fun x => x ^ 2)

/-- Line 1201 of `fit_island`:
`kappa_sigma = np.where(idata - innerclip*rms > 0, idata, 0)`, on the island
sub-image and its rms cut-out, both flattened row-major.  A NaN pixel (or
NaN rms) fails the comparison and maps to 0. -/
def kappaSigmaL (idata rms : List (Option ℚ)) (ic : ℚ) : List ℚ :=
  List.zipWith (fun d r =>
    match d, r with
    | some v, some rv => if 0 < v - ic * rv then v else 0
    | _, _ => 0) idata rms

/-- Maximum of a list of rationals (`ndarray.max()`); 0 on the empty list,
where the source would raise. -/
def maxLQ : List ℚ → ℚ
  | [] => 0
  | x :: xs => xs.foldl max x

/-- Line 1208: `source.peak_flux = kappa_sigma.max()`. -/
def islandPeak (idata rms : List (Option ℚ)) (ic : ℚ) : ℚ :=
  maxLQ (kappaSigmaL idata rms ic)

/-- Lines 1211-1221: the local rms is read at the first (row-major) argmax
position of `kappa_sigma` (`np.where(kappa_sigma == kappa_sigma.max())`). -/
def islandLocalRms (idata rms : List (Option ℚ)) (ic : ℚ) : Option ℚ :=
  rms.getD
    ((kappaSigmaL idata rms ic).findIdx
      (fun v => decide (v = islandPeak idata rms ic))) none

/-- Lines 1234-1245 of `fit_island`: the island-integrated flux.
`beam_volume = 2*pi*pixbeam.a*pixbeam.b/cc2fwhm**2`;
`int_flux = sum(kappa_sigma) / beam_volume`;
`eta = erf(sqrt(-log(local_rms*outerclip/peak)))**2`;
`int_flux = int_flux / eta**2`. -/
def islandIntFlux (rc : RConsts) (idata rms : List (Option ℚ)) (ic oc : ℚ)
    (pb : PixBeam) : Option ℚ :=
  let kappa := kappaSigmaL idata rms ic
  let peak := islandPeak idata rms ic
  let lrms := islandLocalRms idata rms ic
  let beam_volume := 2 * rc.pi * pb.a * pb.b / rc.cc2fwhm ^ 2
  let raw := divO (some kappa.sum) (some beam_volume)
  let ratio := divO (mulO lrms (some oc)) (some peak)
  let eta := sqO (erfO rc.erf (sqrtO rc.sqrt (negO (logO rc.log ratio))))
  divO raw (sqO eta)

/-- Modelled from the claim's words (C3), for comparison with
`islandIntFlux`: the clipped map is `max(data - seed_clip*rms, 0)`, the
integrated flux is its pixel sum divided by the beam volume
`2*pi*sigma_a*sigma_b` (sigma = FWHM/cc2fwhm, pixel units) and by
`eta^2` with `eta = erf(sqrt(-log(local_rms*flood_clip/peak)))`. -/
def islandIntFluxClaim (rc : RConsts) (idata rms : List (Option ℚ)) (ic oc : ℚ)
    (pb : PixBeam) : Option ℚ :=
  let clipped := List.zipWith (fun d r =>
    match d, r with
    | some v, some rv => max (v - ic * rv) 0
    | _, _ => 0) idata rms
  let peak := maxLQ clipped
  let lrms := rms.getD (clipped.findIdx (fun v => decide (v = peak))) none
  let eta := erfO rc.erf (sqrtO rc.sqrt (negO (logO rc.log
    (divO (mulO lrms (some oc)) (some peak)))))
  divO
    (divO (some clipped.sum)
      (some (2 * rc.pi * (pb.a / rc.cc2fwhm) * (pb.b / rc.cc2fwhm))))
    (sqO eta)

/-- The island-integrated record (`source = -1`) appended by
`fit_island` when island fluxes are requested (aegean.py 1199-1247),
restricted to the fields the claims speak about. -/
structure IsleRec where
  source : ℤ
  int_flux : Option ℚ
deriving DecidableEq

/-- The island-integrated records `fit_island` appends (aegean.py 1199-1247):
one record with `source = -1` whenever `island_data.doislandflux` is set,
appended unconditionally. -/
def island_record_sources (rc : RConsts) (doislandflux : Bool)
    (idata rms : List (Option ℚ)) (ic oc : ℚ) (pb : PixBeam) : List IsleRec :=
  if doislandflux then
    [{ source := -1, int_flux := islandIntFlux rc idata rms ic oc pb }]
  else []

/-- Concrete rational stand-ins for the library constants and functions,
used to evaluate closed instances (each value is in the range the real
function can take at the evaluated argument). -/
def rcEval : RConsts :=
  { pi := 3, fwhm2cc := 1, cc2fwhm := 1, sqrt2 := 1,
    cosd := fun _ => 1, sind := fun _ => 0,
    log := fun _ => -4, sqrt := fun _ => 2, erf := fun _ => 1 / 2 }

/-- Stand-ins with a positive logarithm value, driving the island-flux
computation into the NaN branch (`sqrt` of a negative number). -/
def rcNaN : RConsts :=
  { pi := 3, fwhm2cc := 1, cc2fwhm := 1, sqrt2 := 1,
    cosd := fun _ => 1, sind := fun _ => 0,
    log := fun _ => 1, sqrt := fun _ => 0, erf := fun _ => 0 }

/-- C3 counterexample: at a concrete 2-pixel island (`data = [10, 10]`,
`rms = [1, 1]`, `seed_clip = flood_clip = 1`, unit pixel beam, rational
stand-ins for pi/log/sqrt/erf) the code's island-integrated flux is `160/3`
while the claim's formula gives `12`: the code sums the raw pixel values
above the threshold (not `max(data - seed_clip*rms, 0)`) and divides by
`erf(...)^4` (its `eta` is already the square, and it divides by `eta**2`),
not by `eta^2` with `eta = erf(...)`. -/
theorem c3_island_flux_counterexample :
    islandIntFlux rcEval [some 10, some 10] [some 1, some 1] 1 1 ⟨1, 1, 0⟩
      = some (160 / 3)
    ∧ islandIntFluxClaim rcEval [some 10, some 10] [some 1, some 1] 1 1 ⟨1, 1, 0⟩
      = some 12
    ∧ islandIntFlux rcEval [some 10, some 10] [some 1, some 1] 1 1 ⟨1, 1, 0⟩
      ≠ islandIntFluxClaim rcEval [some 10, some 10] [some 1, some 1] 1 1 ⟨1, 1, 0⟩ := by
  refine ⟨?_, ?_, ?_⟩
  · norm_num [islandIntFlux, islandPeak, islandLocalRms, kappaSigmaL, maxLQ,
      divO, mulO, negO, logO, sqrtO, erfO, sqO, rcEval,
      List.zipWith_cons_cons, List.findIdx_cons, List.getD_cons_zero,
      List.getD_cons_succ]
  · norm_num [islandIntFluxClaim, maxLQ,
      divO, mulO, negO, logO, sqrtO, erfO, sqO, rcEval,
      List.zipWith_cons_cons, List.findIdx_cons, List.getD_cons_zero,
      List.getD_cons_succ]
  · norm_num [islandIntFlux, islandIntFluxClaim, islandPeak, islandLocalRms,
      kappaSigmaL, maxLQ, divO, mulO, negO, logO, sqrtO, erfO, sqO, rcEval,
      List.zipWith_cons_cons, List.findIdx_cons, List.getD_cons_zero,
      List.getD_cons_succ]

/-- C3 amended: the island-integrated flux equals the sum of the original
pixel values over the pixels with `data - seed_clip*rms > 0`, divided by
the pixel-space beam volume `2*pi*sigma_a*sigma_b`, divided by `eta^4`
(not `eta^2`) where `eta = erf(sqrt(-log(local_rms*flood_clip/peak)))` —
for every value of the library-function parameters, whenever the
intermediate quantities are finite and nonzero. -/
theorem c3_island_flux_amended (rc : RConsts) (idata rms : List (Option ℚ))
    (ic oc : ℚ) (pb : PixBeam) (r : ℚ)
    (hl : islandLocalRms idata rms ic = some r)
    (hbv : 2 * rc.pi * pb.a * pb.b / rc.cc2fwhm ^ 2 ≠ 0)
    (hpk : islandPeak idata rms ic ≠ 0)
    (hratio : 0 < r * oc / islandPeak idata rms ic)
    (hlog : 0 ≤ -rc.log (r * oc / islandPeak idata rms ic))
    (herf : rc.erf (rc.sqrt (-rc.log (r * oc / islandPeak idata rms ic))) ≠ 0) :
    islandIntFlux rc idata rms ic oc pb =
      some ((kappaSigmaL idata rms ic).sum
        / (2 * rc.pi * (pb.a / rc.cc2fwhm) * (pb.b / rc.cc2fwhm))
        / rc.erf (rc.sqrt (-rc.log (r * oc / islandPeak idata rms ic))) ^ 4) := by
  have hc : rc.cc2fwhm ≠ 0 := by
    intro h
    apply hbv
    rw [h]
    norm_num
  have hbv2 : 2 * rc.pi * pb.a * pb.b / rc.cc2fwhm ^ 2
      = 2 * rc.pi * (pb.a / rc.cc2fwhm) * (pb.b / rc.cc2fwhm) := by
    field_simp
    left
    ring
  have h4 : (rc.erf (rc.sqrt (-rc.log (r * oc / islandPeak idata rms ic))) ^ 2) ^ 2 ≠ 0 :=
    pow_ne_zero _ (pow_ne_zero _ herf)
  simp only [islandIntFlux]
  rw [hl]
  simp only [mulO, divO, logO, negO, sqrtO, erfO, sqO, Option.map,
    if_pos hratio, if_pos hlog, if_neg hpk, if_neg hbv]
  rw [if_neg h4, hbv2]
  rw [show (4 : ℕ) = 2 * 2 from rfl, pow_mul]

/-- Witness for the amended C3 at the concrete island of the counterexample:
the hypotheses hold there and the amended formula evaluates to `160/3`. -/
theorem c3_island_flux_eval :
    islandLocalRms [some 10, some 10] [some 1, some 1] 1 = some 1
    ∧ islandPeak [some 10, some 10] [some 1, some 1] 1 = 10
    ∧ islandIntFlux rcEval [some 10, some 10] [some 1, some 1] 1 1 ⟨1, 1, 0⟩
      = some (160 / 3) := by
  refine ⟨?_, ?_, ?_⟩
  · norm_num [islandLocalRms, islandPeak, kappaSigmaL, maxLQ,
      List.zipWith_cons_cons, List.findIdx_cons, List.getD_cons_zero,
      List.getD_cons_succ]
  · norm_num [islandPeak, kappaSigmaL, maxLQ, List.zipWith_cons_cons]
  · have h := c3_island_flux_amended rcEval [some 10, some 10] [some 1, some 1]
      1 1 ⟨1, 1, 0⟩ 1
      (by norm_num [islandLocalRms, islandPeak, kappaSigmaL, maxLQ,
        List.zipWith_cons_cons, List.findIdx_cons, List.getD_cons_zero,
        List.getD_cons_succ])
      (by norm_num [rcEval])
      (by norm_num [islandPeak, kappaSigmaL, maxLQ, List.zipWith_cons_cons])
      (by norm_num [islandPeak, kappaSigmaL, maxLQ, List.zipWith_cons_cons])
      (by norm_num [rcEval])
      (by norm_num [rcEval])
    rw [h]
    norm_num [rcEval, kappaSigmaL, maxLQ, List.zipWith_cons_cons]

/-- C9 counterexample: at a concrete island where
`local_rms*flood_clip/peak = 2 > 1` (so `-log` is negative and `sqrt` of it
is NaN), `fit_island` still appends the island-integrated record with
`source = -1` and NaN integrated flux: no skip happens. -/
theorem c9_island_record_counterexample :
    island_record_sources rcNaN true [some 1, some 1] [some 2, some 2] 0 1 ⟨1, 1, 0⟩
      = [{ source := -1, int_flux := none }] := by
  norm_num [island_record_sources, islandIntFlux, islandPeak, islandLocalRms,
    kappaSigmaL, maxLQ, divO, mulO, negO, logO, sqrtO, erfO, sqO, rcNaN,
    List.zipWith_cons_cons, List.findIdx_cons, List.getD_cons_zero,
    List.getD_cons_succ]

/-- C9 amended: when island fluxes are requested `fit_island` appends the
island-integrated record (`source = -1`) unconditionally — whatever its
integrated flux, NaN included — and appends nothing otherwise; there is no
NaN check. -/
theorem c9_island_record_amended (rc : RConsts) (idata rms : List (Option ℚ))
    (ic oc : ℚ) (pb : PixBeam) :
    island_record_sources rc true idata rms ic oc pb
      = [{ source := -1, int_flux := islandIntFlux rc idata rms ic oc pb }]
    ∧ island_record_sources rc false idata rms ic oc pb = [] :=
  ⟨rfl, rfl⟩

/-! ## Background / RMS map construction: `make_bkg_rms_image` (aegean.py 759-836)

The image is a list of rows (`data.shape = (img_y, img_x)`); the produced
maps are functions of `(row, col)`.  `get_pixbeam` (WCS collaborator) enters
through its result `pb`.  Integer index arithmetic follows Python:
`//` is `Int.ediv` and `%` is `Int.emod` (they agree for the positive
divisors that occur; a zero mesh width, where Python would raise, is
unreachable in the statements below). -/

/-- Truthiness of an optional float (`if forced_rms:`): `None` and `0.0`
are falsy. -/
def pyTruthy : Option ℚ → Bool
  | none => false
  | some x => decide (x ≠ 0)

/-- Python `range(a, b, step)` for a positive step. -/
def pyRange (a b step : ℤ) : List ℤ :=
  (List.range (Int.toNat (Int.ediv (b - a + step - 1) step))).map
    (fun i => a + step * i)

/-- Python slice `l[a:b]` for the nonnegative bounds that occur here. -/
def sliceZ {α : Type} (a b : ℤ) (l : List α) : List α :=
  (l.drop a.toNat).take (b - a).toNat

/-- Assignment `img[ymin:ymax, xmin:xmax] = v` as a map override. -/
def overrideRect (yt xt : ℤ × ℤ) (v : Option ℚ) (m : (ℕ × ℕ) → Option ℚ) :
    (ℕ × ℕ) → Option ℚ :=
  fun p =>
    if yt.1 ≤ (p.1 : ℤ) ∧ (p.1 : ℤ) < yt.2 ∧ xt.1 ≤ (p.2 : ℤ) ∧ (p.2 : ℤ) < xt.2
    then v else m p

/-- Tile boundaries along one axis (aegean.py 799-828): a first box centred
on the image centre tiles outward, partial tiles reach the edges, and when
the mesh width reaches the image size the whole image is one tile. -/
def meshBounds (img width cen : ℤ) : List ℤ × List ℤ :=
  let start := Int.emod (cen - Int.ediv width 2) width
  let stop := img - Int.emod (img - start) width
  let mins := [0] ++ pyRange start stop width ++ [stop]
  let maxs := [start] ++ pyRange (start + width) (stop + 1) width ++ [img]
  if img ≤ width then ([0], [img]) else (mins, maxs)

/-- `make_bkg_rms_image` (aegean.py 759-836).  With a truthy `forced_rms` it
returns `(np.zeros(shape), np.ones(shape)*forced_rms)`; otherwise it tiles
the image with the beam-scaled mesh and writes `estimate_background` of each
tile into the two maps. -/
def make_bkg_rms_image (rc : RConsts) (data : List (List (Option ℚ)))
    (pb : PixBeam) (mesh_size : ℕ) (forced_rms : Option ℚ) :
    ((ℕ × ℕ) → Option ℚ) × ((ℕ × ℕ) → Option ℚ) :=
  if pyTruthy forced_rms then (fun _ => some 0, fun _ => forced_rms)
  else
    let img_y : ℤ := data.length
    let img_x : ℤ := (data.headD []).length
    let xcen : ℤ := Int.ediv img_x 2
    let ycen : ℤ := Int.ediv img_y 2
    let width_x : ℤ :=
      ⌊(mesh_size : ℚ) * max |rc.cosd pb.pa * pb.b| |rc.sind pb.pa * pb.a|⌋
    let width_y : ℤ :=
      ⌊(mesh_size : ℚ) * max |rc.sind pb.pa * pb.b| |rc.cosd pb.pa * pb.a|⌋
    let xb := meshBounds img_x width_x xcen
    let yb := meshBounds img_y width_y ycen
    (xb.1.zip xb.2).foldl
      (fun maps xt =>
        (yb.1.zip yb.2).foldl
          (fun maps yt =>
            let tile := (sliceZ yt.1 yt.2 data).flatMap
              (fun row => sliceZ xt.1 xt.2 row)
            let br := estimate_background tile
            (overrideRect yt xt (br.map (fun z => z.1)) maps.1,
             overrideRect yt xt (br.map (fun z => z.2)) maps.2))
          maps)
      (fun _ => some 0, fun _ => some 0)

/-- C7 counterexample: `forced_rms = 0.0` is falsy in Python (`if forced_rms:`),
so `make_bkg_rms_image` does not bypass estimation: on a 4x4 image of
constant value 5 with `forced_rms = 0` the returned background map holds 5,
not 0. -/
theorem c7_forced_rms_counterexample :
    (make_bkg_rms_image rcEval (List.replicate 4 (List.replicate 4 (some (5 : ℚ))))
        ⟨1, 1, 0⟩ 20 (some 0)).1 (0, 0) = some 5
    ∧ some (5 : ℚ) ≠ some (0 : ℚ) := by
  constructor
  · have hb : meshBounds 4 20 2 = ([0], [4]) := by decide
    have ht4 : Int.toNat 4 = 4 := rfl
    have hest : estimate_background
        [some (5 : ℚ), some 5, some 5, some 5, some 5, some 5, some 5, some 5,
         some 5, some 5, some 5, some 5, some 5, some 5, some 5, some 5]
        = some (5, 0) := by
      norm_num [estimate_background, finitePixels, List.insertionSort,
        List.orderedInsert, List.filterMap_cons, List.getD_cons_zero,
        List.getD_cons_succ]
    norm_num [make_bkg_rms_image, pyTruthy, rcEval, hb, hest, overrideRect,
      List.replicate_succ, List.head?_cons, Option.getD_some, sliceZ, ht4,
      List.flatMap_cons]
  · norm_num

/-- C7 amended: for every nonzero (truthy) `forced_rms`, `make_bkg_rms_image`
bypasses estimation and returns a background map identically zero and an rms
map uniformly equal to `forced_rms`; a supplied `forced_rms` of exactly 0 is
falsy and estimation runs instead. -/
theorem c7_forced_rms_amended (rc : RConsts) (data : List (List (Option ℚ)))
    (pb : PixBeam) (mesh_size : ℕ) (f : ℚ) (hf : f ≠ 0) (p : ℕ × ℕ) :
    (make_bkg_rms_image rc data pb mesh_size (some f)).1 p = some 0
    ∧ (make_bkg_rms_image rc data pb mesh_size (some f)).2 p = some f := by
  simp [make_bkg_rms_image, pyTruthy, hf]

/-- Witness for the amended C7: with `forced_rms = 2` the maps are
uniformly `(0, 2)`. -/
theorem c7_forced_rms_eval :
    (2 : ℚ) ≠ 0
    ∧ (make_bkg_rms_image rcEval [[some 7]] ⟨1, 1, 0⟩ 20 (some 2)).1 (0, 0) = some 0
    ∧ (make_bkg_rms_image rcEval [[some 7]] ⟨1, 1, 0⟩ 20 (some 2)).2 (0, 0) = some 2 :=
  ⟨by norm_num,
    c7_forced_rms_amended rcEval [[some 7]] ⟨1, 1, 0⟩ 20 2 (by norm_num) (0, 0)⟩

/-! ## Island segmentation: `explore`, `flood`, `gen_flood_wrap`
(aegean.py 300-413) and the driving loop of `find_sources_in_image`
(aegean.py 1372-1379)

The per-pixel `status` byte is modelled by two sets: `Q` (pixels with the
QUEUED bit) and `V` (pixels with the VISITED bit); the PEAKED bit is set by
the source but never read.  A pixel of a `w`-by-`h` image is a pair of
bounded coordinates, so the out-of-bounds guard of `explore` (which exits
the process) is unreachable by construction. -/

/-- A pixel coordinate: first axis `x` (rows), second `y`, as the source
indexes `data.pixels[x, y]`. -/
abbrev Pix (w h : ℕ) := Fin w × Fin h

variable {w h : ℕ}

/-- 4-connectivity: the pixels differ by one step along exactly one axis. -/
def adjPix (p q : Pix w h) : Prop :=
  (p.1 = q.1 ∧ (p.2.val + 1 = q.2.val ∨ q.2.val + 1 = p.2.val))
  ∨ (p.2 = q.2 ∧ (p.1.val + 1 = q.1.val ∨ q.1.val + 1 = p.1.val))

theorem adjPix_symm {p q : Pix w h} (hpq : adjPix p q) : adjPix q p := by
  unfold adjPix at hpq ⊢
  rcases hpq with ⟨he, hd⟩ | ⟨he, hd⟩
  · exact Or.inl ⟨he.symm, hd.symm⟩
  · exact Or.inr ⟨he.symm, hd.symm⟩

/-- The `x > 0` neighbour `(x - 1, y)` explored first (aegean.py 317-321). -/
def candLeft (p : Pix w h) : Option (Pix w h) :=
  if _hx : 0 < p.1.val then
    some (⟨p.1.val - 1, lt_of_le_of_lt (Nat.sub_le _ _) p.1.isLt⟩, p.2)
  else none

/-- The `x < bounds[0]` neighbour `(x + 1, y)` (aegean.py 323-327). -/
def candRight (p : Pix w h) : Option (Pix w h) :=
  if _hx : p.1.val < w - 1 then
    some (⟨p.1.val + 1, by omega⟩, p.2)
  else none

/-- The `y > 0` neighbour `(x, y - 1)` (aegean.py 329-333). -/
def candDown (p : Pix w h) : Option (Pix w h) :=
  if _hy : 0 < p.2.val then
    some (p.1, ⟨p.2.val - 1, lt_of_le_of_lt (Nat.sub_le _ _) p.2.isLt⟩)
  else none

/-- The `y < bounds[1]` neighbour `(x, y + 1)` (aegean.py 335-339). -/
def candUp (p : Pix w h) : Option (Pix w h) :=
  if _hy : p.2.val < h - 1 then
    some (p.1, ⟨p.2.val + 1, by omega⟩)
  else none

theorem candLeft_adj {p n : Pix w h} (hc : candLeft p = some n) : adjPix p n := by
  unfold candLeft at hc
  split_ifs at hc with _hx
  · injection hc with hc
    subst hc
    right
    refine ⟨rfl, Or.inr ?_⟩
    show p.1.val - 1 + 1 = p.1.val
    omega

theorem candRight_adj {p n : Pix w h} (hc : candRight p = some n) : adjPix p n := by
  unfold candRight at hc
  split_ifs at hc with _hx
  · injection hc with hc
    subst hc
    right
    exact ⟨rfl, Or.inl rfl⟩

theorem candDown_adj {p n : Pix w h} (hc : candDown p = some n) : adjPix p n := by
  unfold candDown at hc
  split_ifs at hc with _hy
  · injection hc with hc
    subst hc
    left
    refine ⟨rfl, Or.inr ?_⟩
    show p.2.val - 1 + 1 = p.2.val
    omega

theorem candUp_adj {p n : Pix w h} (hc : candUp p = some n) : adjPix p n := by
  unfold candUp at hc
  split_ifs at hc with _hy
  · injection hc with hc
    subst hc
    left
    exact ⟨rfl, Or.inl rfl⟩

/-- One guarded enqueue of `explore`: if the candidate exists, is not
QUEUED and passes the flood cut `data/rms >= cutoffratio`, append it to the
queue additions and mark it QUEUED (aegean.py 319-321 and its three
copies). -/
def tryEnqueue (P : Pix w h → Bool) (acc : List (Pix w h) × Finset (Pix w h))
    (cand : Option (Pix w h)) : List (Pix w h) × Finset (Pix w h) :=
  match cand with
  | none => acc
  | some n => if n ∉ acc.2 ∧ P n = true then (acc.1 ++ [n], insert n acc.2) else acc

/-- `explore` (aegean.py 300-339): visit the four neighbours of `pixel` in
source order, returning the pixels appended to the queue and the updated
QUEUED set. -/
def explore (P : Pix w h → Bool) (Q : Finset (Pix w h)) (p : Pix w h) :
    List (Pix w h) × Finset (Pix w h) :=
  [candLeft p, candRight p, candDown p, candUp p].foldl (tryEnqueue P) ([], Q)

theorem tryEnqueue_fold_spec (P : Pix w h → Bool) :
    ∀ (cands : List (Option (Pix w h))) (acc : List (Pix w h) × Finset (Pix w h)),
      ∃ add : List (Pix w h),
        (cands.foldl (tryEnqueue P) acc).1 = acc.1 ++ add
        ∧ (cands.foldl (tryEnqueue P) acc).2 = acc.2 ∪ add.toFinset
        ∧ add.Nodup
        ∧ (∀ n ∈ add, n ∉ acc.2 ∧ P n = true ∧ some n ∈ cands) := by
  intro cands
  induction cands with
  | nil =>
    intro acc
    exact ⟨[], by simp⟩
  | cons c cs ih =>
    intro acc
    match c with
    | none =>
      obtain ⟨add, h1, h2, h3, h4⟩ := ih acc
      refine ⟨add, by simpa [tryEnqueue] using h1, by simpa [tryEnqueue] using h2,
        h3, fun n hn => ?_⟩
      obtain ⟨ha, hb, hc⟩ := h4 n hn
      exact ⟨ha, hb, by simp [hc]⟩
    | some m =>
      by_cases hm : m ∉ acc.2 ∧ P m = true
      · obtain ⟨add, h1, h2, h3, h4⟩ := ih (acc.1 ++ [m], insert m acc.2)
        have hstep : tryEnqueue P acc (some m) = (acc.1 ++ [m], insert m acc.2) := by
          simp only [tryEnqueue]
          rw [if_pos hm]
        refine ⟨m :: add, ?_, ?_, ?_, ?_⟩
        · rw [List.foldl_cons, hstep, h1]
          simp
        · rw [List.foldl_cons, hstep, h2]
          simp [Finset.insert_union, Finset.union_insert, List.toFinset_cons]
        · refine List.nodup_cons.mpr ⟨fun hmem => ?_, h3⟩
          exact (h4 m hmem).1 (Finset.mem_insert_self m acc.2)
        · intro n hn
          rcases List.mem_cons.mp hn with rfl | hn'
          · exact ⟨hm.1, hm.2, by simp⟩
          · obtain ⟨ha, hb, hc⟩ := h4 n hn'
            exact ⟨fun hmem => ha (Finset.mem_insert_of_mem hmem), hb, by simp [hc]⟩
      · obtain ⟨add, h1, h2, h3, h4⟩ := ih acc
        have hstep : tryEnqueue P acc (some m) = acc := by
          simp only [tryEnqueue]
          rw [if_neg hm]
        refine ⟨add, by rw [List.foldl_cons, hstep]; exact h1,
          by rw [List.foldl_cons, hstep]; exact h2, h3, fun n hn => ?_⟩
        obtain ⟨ha, hb, hc⟩ := h4 n hn
        exact ⟨ha, hb, by simp [hc]⟩

theorem explore_spec (P : Pix w h → Bool) (Q : Finset (Pix w h)) (p : Pix w h) :
    (explore P Q p).2 = Q ∪ (explore P Q p).1.toFinset
    ∧ (explore P Q p).1.Nodup
    ∧ (∀ n ∈ (explore P Q p).1, n ∉ Q ∧ P n = true ∧ adjPix p n) := by
  obtain ⟨add, h1, h2, h3, h4⟩ :=
    tryEnqueue_fold_spec P [candLeft p, candRight p, candDown p, candUp p] ([], Q)
  have e1 : (explore P Q p).1 = add := by
    unfold explore
    rw [h1]
    simp
  have e2 : (explore P Q p).2 = Q ∪ add.toFinset := h2
  refine ⟨by rw [e1, e2], by rw [e1]; exact h3, fun n hn => ?_⟩
  rw [e1] at hn
  obtain ⟨ha, hb, hc⟩ := h4 n hn
  refine ⟨ha, hb, ?_⟩
  simp only [List.mem_cons, List.not_mem_nil, or_false] at hc
  rcases hc with hc | hc | hc | hc
  · exact candLeft_adj hc.symm
  · exact candRight_adj hc.symm
  · exact candDown_adj hc.symm
  · exact candUp_adj hc.symm

theorem explore_card (P : Pix w h → Bool) (Q : Finset (Pix w h)) (p : Pix w h) :
    (explore P Q p).2.card = Q.card + (explore P Q p).1.length := by
  obtain ⟨h2, hnd, hmem⟩ := explore_spec P Q p
  have hdisj : Disjoint Q (explore P Q p).1.toFinset := by
    rw [Finset.disjoint_right]
    intro a ha
    exact (hmem a (List.mem_toFinset.mp ha)).1
  rw [h2, Finset.card_union_of_disjoint hdisj, List.toFinset_card_of_nodup hnd]

/-- One adjacency step inside a pixel list (used to state 4-connectivity). -/
def stepRel (l : List (Pix w h)) (a b : Pix w h) : Prop :=
  adjPix a b ∧ a ∈ l ∧ b ∈ l

theorem stepRel_symm (l : List (Pix w h)) : Symmetric (stepRel l) :=
  fun _ _ hab => ⟨adjPix_symm hab.1, hab.2.2, hab.2.1⟩

theorem stepRel_mono_cons (p : Pix w h) (l : List (Pix w h)) {a b : Pix w h}
    (hab : stepRel l a b) : stepRel (p :: l) a b :=
  ⟨hab.1, List.mem_cons_of_mem _ hab.2.1, List.mem_cons_of_mem _ hab.2.2⟩

/-- The `for pixel in queue` loop of `flood` (aegean.py 357-364): pop the
head; a VISITED pixel is skipped, otherwise it is marked VISITED, appended
to the blob, and its neighbours are explored onto the queue.  Terminates
because every enqueue adds a pixel to the finite QUEUED set. -/
def floodLoop (P : Pix w h → Bool) (queue : List (Pix w h))
    (Q V : Finset (Pix w h)) :
    List (Pix w h) × Finset (Pix w h) × Finset (Pix w h) :=
  match queue with
  | [] => ([], Q, V)
  | p :: rest =>
    if p ∈ V then floodLoop P rest Q V
    else
      let e := explore P Q p
      let r := floodLoop P (rest ++ e.1) e.2 (insert p V)
      (p :: r.1, r.2.1, r.2.2)
termination_by (Finset.univ \ Q).card + queue.length
decreasing_by
  · simp only [List.length_cons]
    omega
  · have hc := explore_card P Q p
    have hsub : (explore P Q p).2.card ≤ (Finset.univ : Finset (Pix w h)).card :=
      Finset.card_le_card (Finset.subset_univ _)
    rw [Finset.card_sdiff (Finset.subset_univ _), Finset.card_sdiff (Finset.subset_univ _),
      List.length_append, List.length_cons]
    omega

theorem floodLoop_spec (P : Pix w h → Bool) :
    ∀ (queue : List (Pix w h)) (Q V : Finset (Pix w h)),
      (∀ q ∈ queue, q ∈ Q) → V ⊆ Q →
      Q ⊆ (floodLoop P queue Q V).2.1
      ∧ (floodLoop P queue Q V).2.2 = V ∪ (floodLoop P queue Q V).1.toFinset
      ∧ (floodLoop P queue Q V).1.Nodup
      ∧ (∀ b ∈ (floodLoop P queue Q V).1, b ∉ V)
      ∧ (∀ q ∈ queue, q ∈ (floodLoop P queue Q V).2.2)
      ∧ (floodLoop P queue Q V).2.2 ⊆ (floodLoop P queue Q V).2.1
      ∧ (∀ x ∈ (floodLoop P queue Q V).1,
          ∃ q ∈ queue, q ∉ V ∧
            Relation.ReflTransGen (stepRel (floodLoop P queue Q V).1) q x) := by
  intro queue Q V
  induction queue, Q, V using floodLoop.induct P with
  | case1 Q V =>
    intro _ hVQ
    simp only [floodLoop]
    exact ⟨subset_rfl, by simp, List.nodup_nil, by simp, by simp, hVQ, by simp⟩
  | case2 Q V p rest hp ih =>
    intro hQ hVQ
    have hres : floodLoop P (p :: rest) Q V = floodLoop P rest Q V := by
      simp only [floodLoop]
      rw [if_pos hp]
    rw [hres]
    obtain ⟨a, b, c, d, e, f, g⟩ := ih (fun q hq => hQ q (List.mem_cons_of_mem _ hq)) hVQ
    refine ⟨a, b, c, d, ?_, f, ?_⟩
    · intro q hq
      rcases List.mem_cons.mp hq with rfl | hq'
      · rw [b]
        exact Finset.mem_union_left _ hp
      · exact e q hq'
    · intro x hx
      obtain ⟨q, hqmem, hqV, hpath⟩ := g x hx
      exact ⟨q, List.mem_cons_of_mem _ hqmem, hqV, hpath⟩
  | case3 Q V p rest hp epair ih =>
    intro hQ hVQ
    have hee : epair = explore P Q p := rfl
    rw [hee] at ih
    obtain ⟨hE1, hE2, hE3⟩ := explore_spec P Q p
    have hpQ : p ∈ Q := hQ p (List.mem_cons_self p rest)
    have hQe : Q ⊆ (explore P Q p).2 := by
      rw [hE1]
      exact Finset.subset_union_left
    have hqQ : ∀ q ∈ rest ++ (explore P Q p).1, q ∈ (explore P Q p).2 := by
      intro q hq
      rcases List.mem_append.mp hq with hq' | hq'
      · exact hQe (hQ q (List.mem_cons_of_mem _ hq'))
      · rw [hE1]
        exact Finset.mem_union_right _ (List.mem_toFinset.mpr hq')
    have hVQe : insert p V ⊆ (explore P Q p).2 :=
      Finset.insert_subset_iff.mpr ⟨hQe hpQ, fun x hx => hQe (hVQ hx)⟩
    obtain ⟨a, b, c, d, e, f, g⟩ := ih hqQ hVQe
    have hres : floodLoop P (p :: rest) Q V =
        (p :: (floodLoop P (rest ++ (explore P Q p).1) (explore P Q p).2 (insert p V)).1,
         (floodLoop P (rest ++ (explore P Q p).1) (explore P Q p).2 (insert p V)).2.1,
         (floodLoop P (rest ++ (explore P Q p).1) (explore P Q p).2 (insert p V)).2.2) := by
      simp only [floodLoop]
      rw [if_neg hp]
    rw [hres]
    generalize hr : floodLoop P (rest ++ (explore P Q p).1) (explore P Q p).2 (insert p V) = r
      at a b c d e f g
    refine ⟨?_, ?_, ?_, ?_, ?_, f, ?_⟩
    · exact fun x hx => a (hQe hx)
    · rw [b, List.toFinset_cons]
      ext y
      simp only [Finset.mem_union, Finset.mem_insert, List.mem_toFinset]
      tauto
    · exact List.nodup_cons.mpr ⟨fun hmem => (d p hmem) (Finset.mem_insert_self _ _), c⟩
    · intro bq hbq
      rcases List.mem_cons.mp hbq with rfl | hmem
      · exact hp
      · exact fun hv => d bq hmem (Finset.mem_insert_of_mem hv)
    · intro q hq
      rcases List.mem_cons.mp hq with rfl | hq'
      · rw [b]
        exact Finset.mem_union_left _ (Finset.mem_insert_self _ _)
      · exact e q (List.mem_append_left _ hq')
    · intro x hx
      rcases List.mem_cons.mp hx with rfl | hx'
      · exact ⟨x, List.mem_cons_self _ _, hp, Relation.ReflTransGen.refl⟩
      · obtain ⟨q, hqmem, hqV, hpath⟩ := g x hx'
        have hpath' : Relation.ReflTransGen (stepRel (p :: r.1)) q x :=
          Relation.ReflTransGen.mono (fun u v huv => stepRel_mono_cons p _ huv) hpath
        rcases List.mem_append.mp hqmem with hq' | hq'
        · exact ⟨q, List.mem_cons_of_mem _ hq',
            fun hv => hqV (Finset.mem_insert_of_mem hv), hpath'⟩
        · obtain ⟨hqnQ, hqP, hqadj⟩ := hE3 q hq'
          have hqnV : q ∉ insert p V := by
            intro hv
            rcases Finset.mem_insert.mp hv with rfl | hv'
            · exact hqnQ hpQ
            · exact hqnQ (hVQ hv')
          have hqVr : q ∈ r.2.2 := e q (List.mem_append_right _ hq')
          have hqblob : q ∈ r.1 := by
            rw [b] at hqVr
            rcases Finset.mem_union.mp hqVr with hv | hv
            · exact absurd hv hqnV
            · exact List.mem_toFinset.mp hv
          refine ⟨p, List.mem_cons_self _ _, hp, ?_⟩
          exact Relation.ReflTransGen.head
            ⟨hqadj, List.mem_cons_self _ _, List.mem_cons_of_mem _ hqblob⟩ hpath'

/-- `flood` (aegean.py 341-366): an already-VISITED peak yields the empty
blob, otherwise the peak is enqueued (QUEUED) and the loop drains the
queue. -/
def flood (P : Pix w h → Bool) (Q V : Finset (Pix w h)) (peak : Pix w h) :
    List (Pix w h) × Finset (Pix w h) × Finset (Pix w h) :=
  if peak ∈ V then ([], Q, V)
  else floodLoop P [peak] (insert peak Q) V

theorem flood_spec (P : Pix w h → Bool) (Q V : Finset (Pix w h)) (peak : Pix w h)
    (hVQ : V ⊆ Q) :
    Q ⊆ (flood P Q V peak).2.1
    ∧ (flood P Q V peak).2.2 = V ∪ (flood P Q V peak).1.toFinset
    ∧ (flood P Q V peak).1.Nodup
    ∧ (∀ b ∈ (flood P Q V peak).1, b ∉ V)
    ∧ (flood P Q V peak).2.2 ⊆ (flood P Q V peak).2.1
    ∧ (∀ x ∈ (flood P Q V peak).1,
        Relation.ReflTransGen (stepRel (flood P Q V peak).1) peak x) := by
  unfold flood
  split_ifs with hv
  · exact ⟨subset_rfl, by simp, List.nodup_nil, by simp, hVQ, by simp⟩
  · obtain ⟨a, b, c, d, e, f, g⟩ := floodLoop_spec P [peak] (insert peak Q) V
      (by simp) (hVQ.trans (Finset.subset_insert _ _))
    refine ⟨(Finset.subset_insert peak Q).trans a, b, c, d, f, ?_⟩
    intro x hx
    obtain ⟨q, hqmem, _, hpath⟩ := g x hx
    rcases List.mem_cons.mp hqmem with rfl | hq
    · exact hpath
    · cases hq

/-- The seed loop of `gen_flood_wrap` (aegean.py 403-413): flood from each
seed in order, threading the status sets, and yield the blobs with at least
one pixel (`npix >= 1`). -/
def floodAll (P : Pix w h → Bool) :
    List (Pix w h) → Finset (Pix w h) → Finset (Pix w h) →
    List (List (Pix w h)) × Finset (Pix w h) × Finset (Pix w h)
  | [], Q, V => ([], Q, V)
  | s :: rest, Q, V =>
    let f := flood P Q V s
    let r := floodAll P rest f.2.1 f.2.2
    (if 1 ≤ f.1.length then f.1 :: r.1 else r.1, r.2.1, r.2.2)

theorem floodAll_spec (P : Pix w h → Bool) :
    ∀ (seeds : List (Pix w h)) (Q V : Finset (Pix w h)), V ⊆ Q →
      V ⊆ (floodAll P seeds Q V).2.2
      ∧ (floodAll P seeds Q V).2.2 ⊆ (floodAll P seeds Q V).2.1
      ∧ (∀ I ∈ (floodAll P seeds Q V).1, ∀ x ∈ I,
          x ∈ (floodAll P seeds Q V).2.2 ∧ x ∉ V)
      ∧ (floodAll P seeds Q V).1.Pairwise (fun A B => ∀ x ∈ A, x ∉ B)
      ∧ (∀ I ∈ (floodAll P seeds Q V).1, I ≠ [] ∧ I.Nodup ∧
          ∃ s ∈ I, ∀ x ∈ I, Relation.ReflTransGen (stepRel I) s x) := by
  intro seeds
  induction seeds with
  | nil =>
    intro Q V hVQ
    simp only [floodAll]
    exact ⟨subset_rfl, hVQ, by simp, by simp, by simp⟩
  | cons s rest ih =>
    intro Q V hVQ
    obtain ⟨f1, f2, f3, f4, f5, f6⟩ := flood_spec P Q V s hVQ
    have hVf : V ⊆ (flood P Q V s).2.2 := by
      rw [f2]
      exact Finset.subset_union_left
    have hblobf : ∀ x ∈ (flood P Q V s).1, x ∈ (flood P Q V s).2.2 := by
      intro x hx
      rw [f2]
      exact Finset.mem_union_right _ (List.mem_toFinset.mpr hx)
    obtain ⟨A, B, C, D, E⟩ := ih (flood P Q V s).2.1 (flood P Q V s).2.2 f5
    have hres : floodAll P (s :: rest) Q V =
        (if 1 ≤ (flood P Q V s).1.length
          then (flood P Q V s).1 ::
            (floodAll P rest (flood P Q V s).2.1 (flood P Q V s).2.2).1
          else (floodAll P rest (flood P Q V s).2.1 (flood P Q V s).2.2).1,
         (floodAll P rest (flood P Q V s).2.1 (flood P Q V s).2.2).2.1,
         (floodAll P rest (flood P Q V s).2.1 (flood P Q V s).2.2).2.2) := by
      simp only [floodAll]
    rw [hres]
    refine ⟨hVf.trans A, B, ?_, ?_, ?_⟩
    · intro I hI x hxI
      by_cases hlen : 1 ≤ (flood P Q V s).1.length
      · rw [if_pos hlen] at hI
        rcases List.mem_cons.mp hI with rfl | hI'
        · exact ⟨A (hblobf x hxI), f4 x hxI⟩
        · obtain ⟨hx1, hx2⟩ := C I hI' x hxI
          exact ⟨hx1, fun hv => hx2 (hVf hv)⟩
      · rw [if_neg hlen] at hI
        obtain ⟨hx1, hx2⟩ := C I hI x hxI
        exact ⟨hx1, fun hv => hx2 (hVf hv)⟩
    · by_cases hlen : 1 ≤ (flood P Q V s).1.length
      · rw [if_pos hlen]
        refine List.pairwise_cons.mpr ⟨?_, D⟩
        intro I hI x hxf hxI
        exact (C I hI x hxI).2 (hblobf x hxf)
      · rw [if_neg hlen]
        exact D
    · intro I hI
      by_cases hlen : 1 ≤ (flood P Q V s).1.length
      · rw [if_pos hlen] at hI
        rcases List.mem_cons.mp hI with rfl | hI'
        · have hne : (flood P Q V s).1 ≠ [] := by
            intro hnil
            rw [hnil] at hlen
            simp at hlen
          refine ⟨hne, f3, ?_⟩
          obtain ⟨x0, hx0⟩ := List.exists_mem_of_ne_nil _ hne
          have hs : s ∈ (flood P Q V s).1 := by
            rcases (Relation.ReflTransGen.cases_head (f6 x0 hx0)) with heq | ⟨c, hc, _⟩
            · rwa [← heq] at hx0
            · exact hc.2.1
          exact ⟨s, hs, f6⟩
        · exact E I hI'
      · rw [if_neg hlen] at hI
        exact E I hI

/-- Row-major enumeration of the image pixels (`np.where` order). -/
def gridList (w h : ℕ) : List (Pix w h) :=
  (List.finRange w).flatMap (fun x => (List.finRange h).map (fun y => (x, y)))

/-- The flood cut `data[new]/rmsimg[new] >= cutoffratio` (aegean.py 319);
false on NaN data or NaN rms. -/
def floodPred (dat rms : Pix w h → Option ℚ) (oc : ℚ) (p : Pix w h) : Bool :=
  match dat p, rms p with
  | some d, some r => decide (oc ≤ d / r)
  | _, _ => false

/-- The seed list of `gen_flood_wrap` (aegean.py 390-391): pixels with
`data/rms > innerclip` paired with their flux. -/
def seedPairs (dat rms : Pix w h → Option ℚ) (ic : ℚ) : List (ℚ × Pix w h) :=
  (gridList w h).filterMap (fun p =>
    match dat p, rms p with
    | some d, some r => if ic < d / r then some (d, p) else none
    | _, _ => none)

/-- The Python ascending order on `(flux, x, y)` tuples used by
`peaks.sort(reverse=True)` (aegean.py 396). -/
def seedLE (s t : ℚ × Pix w h) : Prop :=
  s.1 < t.1 ∨ (s.1 = t.1 ∧ (s.2.1 < t.2.1 ∨ (s.2.1 = t.2.1 ∧ s.2.2 ≤ t.2.2)))

instance : DecidableRel (@seedLE w h) := fun s t => by
  unfold seedLE
  infer_instance

/-- Seeds sorted by descending flux (sort ascending, then reverse), with
the flux dropped (aegean.py 396-397). -/
def sortedSeeds (dat rms : Pix w h → Option ℚ) (ic : ℚ) : List (Pix w h) :=
  ((List.insertionSort seedLE (seedPairs dat rms ic)).reverse).map (fun t => t.2)

/-- One island as yielded by `gen_flood_wrap` (aegean.py 411-413): the blob
pixel list and the bounding box `data.list2map(blob)` computes. -/
structure IsleY (w h : ℕ) where
  blob : List (Pix w h)
  xmin : ℕ
  xmax : ℕ
  ymin : ℕ
  ymax : ℕ
deriving DecidableEq

/-- Python `min` over a list of naturals (0 on the empty list, where the
source would raise). -/
def minLN : List ℕ → ℕ
  | [] => 0
  | x :: xs => xs.foldl min x

/-- Python `max` over a list of naturals (0 on the empty list). -/
def maxLN : List ℕ → ℕ
  | [] => 0
  | x :: xs => xs.foldl max x

/-- `list2map` box computation (aegean.py 85-103): `xmin`/`xmax` and
`ymin`/`ymax` are the extremes of the blob coordinates. -/
def mkIsle (blob : List (Pix w h)) : IsleY w h :=
  { blob := blob,
    xmin := minLN (blob.map (fun p => p.1.val)),
    xmax := maxLN (blob.map (fun p => p.1.val)),
    ymin := minLN (blob.map (fun p => p.2.val)),
    ymax := maxLN (blob.map (fun p => p.2.val)) }

/-- `gen_flood_wrap` (aegean.py 368-413) on the `expand=False` path used by
the driver: seeds sorted by descending flux, one flood per unvisited seed,
islands of at least one pixel yielded with their bounding box. -/
def gen_flood_wrap (dat rms : Pix w h → Option ℚ) (ic oc : ℚ) : List (IsleY w h) :=
  ((floodAll (floodPred dat rms oc) (sortedSeeds dat rms ic) ∅ ∅).1).map mkIsle

/-- A pixel list is 4-connected: any two members are joined by a path of
adjacent members. -/
def fourConnected (l : List (Pix w h)) : Prop :=
  ∀ p ∈ l, ∀ q ∈ l, Relation.ReflTransGen (stepRel l) p q

/-- The driver filter (aegean.py 1372-1379): an island is handed to fitting
only when `len(i) > 1`, where `i` is the cropped 2-d sub-image, so `len`
counts its rows `xmax - xmin + 1`. -/
def fitting_islands (dat rms : Pix w h → Option ℚ) (ic oc : ℚ) : List (IsleY w h) :=
  (gen_flood_wrap dat rms ic oc).filter (fun I => decide (1 < I.xmax - I.xmin + 1))

theorem fourConnected_of_root {l : List (Pix w h)}
    (hroot : ∃ s ∈ l, ∀ x ∈ l, Relation.ReflTransGen (stepRel l) s x) :
    fourConnected l := by
  obtain ⟨s, _, hs⟩ := hroot
  intro p hp q hq
  have hsym : Symmetric (Relation.ReflTransGen (stepRel l)) :=
    Relation.ReflTransGen.symmetric (stepRel_symm l)
  exact Relation.ReflTransGen.trans (hsym (hs p hp)) (hs q hq)

theorem foldl_min_mem : ∀ (xs : List ℕ) (x : ℕ), xs.foldl min x ∈ x :: xs := by
  intro xs
  induction xs with
  | nil =>
    intro x
    simp
  | cons y ys ih =>
    intro x
    rw [List.foldl_cons]
    rcases List.mem_cons.mp (ih (min x y)) with heq | hmem
    · rw [heq]
      rcases min_choice x y with hxy | hxy
      · rw [hxy]
        exact List.mem_cons_self _ _
      · rw [hxy]
        exact List.mem_cons_of_mem _ (List.mem_cons_self _ _)
    · exact List.mem_cons_of_mem _ (List.mem_cons_of_mem _ hmem)

theorem foldl_max_mem : ∀ (xs : List ℕ) (x : ℕ), xs.foldl max x ∈ x :: xs := by
  intro xs
  induction xs with
  | nil =>
    intro x
    simp
  | cons y ys ih =>
    intro x
    rw [List.foldl_cons]
    rcases List.mem_cons.mp (ih (max x y)) with heq | hmem
    · rw [heq]
      rcases max_choice x y with hxy | hxy
      · rw [hxy]
        exact List.mem_cons_self _ _
      · rw [hxy]
        exact List.mem_cons_of_mem _ (List.mem_cons_self _ _)
    · exact List.mem_cons_of_mem _ (List.mem_cons_of_mem _ hmem)

theorem minLN_mem {xs : List ℕ} (hne : xs ≠ []) : minLN xs ∈ xs := by
  match xs with
  | [] => exact absurd rfl hne
  | x :: rest => exact foldl_min_mem rest x

theorem maxLN_mem {xs : List ℕ} (hne : xs ≠ []) : maxLN xs ∈ xs := by
  match xs with
  | [] => exact absurd rfl hne
  | x :: rest => exact foldl_max_mem rest x

/-- C6: over one run of the segmenter the yielded islands' pixel sets are
pairwise disjoint and each island is 4-connected; and `explore` (the only
place pixels are enqueued) never enqueues a pixel whose QUEUED bit is set:
the pixels it appends are distinct, none was in the queued set, and all are
added to it. -/
theorem c6_segmenter_invariants (w h : ℕ) (dat rms : Pix w h → Option ℚ)
    (ic oc : ℚ) :
    (gen_flood_wrap dat rms ic oc).Pairwise (fun A B => ∀ p ∈ A.blob, p ∉ B.blob)
    ∧ (gen_flood_wrap dat rms ic oc).Forall (fun I => fourConnected I.blob)
    ∧ (gen_flood_wrap dat rms ic oc).Forall (fun I => I.blob.Nodup)
    ∧ (∀ (Q : Finset (Pix w h)) (p : Pix w h),
        (explore (floodPred dat rms oc) Q p).1.Nodup
        ∧ (∀ n ∈ (explore (floodPred dat rms oc) Q p).1, n ∉ Q)
        ∧ (explore (floodPred dat rms oc) Q p).2
            = Q ∪ (explore (floodPred dat rms oc) Q p).1.toFinset) := by
  obtain ⟨-, -, -, D, E⟩ := floodAll_spec (floodPred dat rms oc)
    (sortedSeeds dat rms ic) ∅ ∅ subset_rfl
  refine ⟨?_, ?_, ?_, ?_⟩
  · rw [gen_flood_wrap, List.pairwise_map]
    exact D
  · rw [gen_flood_wrap, List.forall_iff_forall_mem]
    intro I hI
    rw [List.mem_map] at hI
    obtain ⟨b, hb, rfl⟩ := hI
    obtain ⟨-, -, hroot⟩ := E b hb
    exact fourConnected_of_root hroot
  · rw [gen_flood_wrap, List.forall_iff_forall_mem]
    intro I hI
    rw [List.mem_map] at hI
    obtain ⟨b, hb, rfl⟩ := hI
    obtain ⟨-, hnd, -⟩ := E b hb
    exact hnd
  · intro Q p
    obtain ⟨h1, h2, h3⟩ := explore_spec (floodPred dat rms oc) Q p
    exact ⟨h2, fun n hn => (h3 n hn).1, h1⟩

/-- C8: every island kept by the driver filter `len(i) > 1` (the cropped
sub-image has more than one row, `xmax - xmin + 1 > 1`) contains at least
two distinct pixels. -/
theorem c8_fitted_islands_ge_two_pixels (w h : ℕ) (dat rms : Pix w h → Option ℚ)
    (ic oc : ℚ) :
    (fitting_islands dat rms ic oc).Forall (fun I => 2 ≤ I.blob.toFinset.card) := by
  rw [List.forall_iff_forall_mem]
  intro I hI
  rw [fitting_islands, List.mem_filter] at hI
  obtain ⟨hmem, hlen⟩ := hI
  rw [gen_flood_wrap, List.mem_map] at hmem
  obtain ⟨b, hb, rfl⟩ := hmem
  obtain ⟨-, -, -, -, E⟩ := floodAll_spec (floodPred dat rms oc)
    (sortedSeeds dat rms ic) ∅ ∅ subset_rfl
  obtain ⟨hne, -, -⟩ := E b hb
  have hlen' : 1 < maxLN (b.map (fun p => p.1.val))
      - minLN (b.map (fun p => p.1.val)) + 1 := by
    simpa [mkIsle] using hlen
  have hxsne : b.map (fun p => p.1.val) ≠ [] := by
    simp [hne]
  obtain ⟨p, hpmem, hpv⟩ := List.mem_map.mp (minLN_mem hxsne)
  obtain ⟨q, hqmem, hqv⟩ := List.mem_map.mp (maxLN_mem hxsne)
  have hlt : minLN (b.map (fun p => p.1.val)) < maxLN (b.map (fun p => p.1.val)) := by
    omega
  have hpq : p ≠ q := by
    intro he
    rw [he, hqv] at hpv
    omega
  have hcard : 1 < (mkIsle b).blob.toFinset.card :=
    Finset.one_lt_card.mpr
      ⟨p, List.mem_toFinset.mpr hpmem, q, List.mem_toFinset.mpr hqmem, hpq⟩
  omega

/-! ## Parameter estimation: `estimate_parinfo` (aegean.py 416-568) -/

/-- A pixel of the island grid at unchecked coordinates; `none` past the
edge (unreachable for the accesses the source performs). -/
def pixAt (w h : ℕ) (x y : ℕ) : Option (Pix w h) :=
  if hx : x < w then if hy : y < h then some (⟨x, hx⟩, ⟨y, hy⟩) else none else none

/-- Array access `img[x, y]` on an island-shaped map. -/
def gridAt (f : Pix w h → Option ℚ) (x y : ℕ) : Option ℚ :=
  match pixAt w h x y with
  | some p => f p
  | none => none

/-- `len(data[np.where(data==data)].ravel())`: the finite-pixel count. -/
def countFinite (dat : Pix w h → Option ℚ) : ℕ :=
  ((gridList w h).filterMap (fun p => dat p)).length

/-- One summit as consumed by the estimation loop of `estimate_parinfo`:
the cropped value array (`vals i j`, `none` off-summit) with its shape and
the box `(xmin, xmax, ymin, ymax)`. -/
structure Summit where
  vals : ℕ → ℕ → Option ℚ
  nrows : ℕ
  ncols : ℕ
  xmin : ℕ
  xmax : ℕ
  ymin : ℕ
  ymax : ℕ

/-- The single whole-island summit `[data, 0, data.shape[0], 0, data.shape[1]]`
used for 1d or tiny islands (aegean.py 471). -/
def dataSummit (dat : Pix w h → Option ℚ) : Summit :=
  { vals := fun i j => gridAt dat i j, nrows := w, ncols := h,
    xmin := 0, xmax := w, ymin := 0, ymax := h }

/-- A summit cropped out of the kappa-sigma island by the segmenter
(`data.list2map(blob)`): blob pixels carry their kappa value, the rest NaN. -/
def summitOfIsle (kappa : Pix w h → ℚ) (I : IsleY w h) : Summit :=
  { vals := fun i j =>
      match pixAt w h (I.xmin + i) (I.ymin + j) with
      | some p => if p ∈ I.blob then some (kappa p) else none
      | none => none,
    nrows := I.xmax - I.xmin + 1,
    ncols := I.ymax - I.ymin + 1,
    xmin := I.xmin, xmax := I.xmax, ymin := I.ymin, ymax := I.ymax }

/-- One entry of the `parinfo` list (six per candidate Gaussian);
`pflags` is the `flags` key, present only on the shape parameters. -/
inductive ParName
  | amp
  | xo
  | yo
  | major
  | minor
  | pa
deriving DecidableEq

structure ParRec where
  pname : ParName
  value : ℚ
  fixed : Bool
  limits : ℚ × ℚ
  limited : Bool × Bool
  pflags : Option ℕ
deriving DecidableEq

/-- Lines 495-497 of `estimate_parinfo`: the x centre bounds
`max(xmin, xo-xo_lim), min(xmax, xo+xo_lim)` (clipped to the summit box),
widened by half a pixel when they collapse. -/
def xoBounds (xmin xmax xo : ℕ) (lim : ℚ) : ℚ × ℚ :=
  let mn := max (xmin : ℚ) ((xo : ℚ) - lim)
  let mx := min (xmax : ℚ) ((xo : ℚ) + lim)
  if mn = mx then (mn - 1 / 2, mx + 1 / 2) else (mn, mx)

/-- Lines 499-501 of `estimate_parinfo`: the y centre bounds as the source
computes them — `min(ymin, yo-yo_lim), max(ymax, yo+yo_lim)` (note `min`
and `max` swapped relative to the x axis), widened by half a pixel when
they collapse. -/
def yoBounds (ymin ymax yo : ℕ) (lim : ℚ) : ℚ × ℚ :=
  let mn := min (ymin : ℚ) ((yo : ℚ) - lim)
  let mx := max (ymax : ℚ) ((yo : ℚ) + lim)
  if mn = mx then (mn - 1 / 2, mx + 1 / 2) else (mn, mx)

/-- Modelled from the spec's words (C5): the y centre bounds clipped to the
summit box, mirroring the x axis. -/
def yoBoundsSpec (ymin ymax yo : ℕ) (lim : ℚ) : ℚ × ℚ :=
  let mn := max (ymin : ℚ) ((yo : ℚ) - lim)
  let mx := min (ymax : ℚ) ((yo : ℚ) + lim)
  if mn = mx then (mn - 1 / 2, mx + 1 / 2) else (mn, mx)

/-- The row-major cell enumeration of a summit crop (`np.where` order). -/
def summitCells (s : Summit) : List (ℕ × ℕ) :=
  (List.range s.nrows).flatMap (fun i => (List.range s.ncols).map (fun j => (i, j)))

/-- The six parameter records built for one summit
(aegean.py 479-566). -/
def summitParinfo (rc : RConsts) (rmsA : ℕ → ℕ → Option ℚ) (pb : PixBeam)
    (xo_lim yo_lim : ℚ) (base_flag : ℕ) (s : Summit) : List ParRec :=
  let cells := summitCells s
  let finvals := cells.filterMap (fun ij => s.vals ij.1 ij.2)
  let amp := maxLQ finvals
  let pk := (cells.find? (fun ij => decide (s.vals ij.1 ij.2 = some amp))).getD (0, 0)
  let xo := pk.1 + s.xmin
  let yo := pk.2 + s.ymin
  let rxy := (rmsA xo yo).getD 0
  let amp_min := 4 * rxy
  let amp_max := amp * (105 / 100) + 3 * rxy
  let xob := xoBounds s.xmin s.xmax xo xo_lim
  let yob := yoBounds s.ymin s.ymax yo yo_lim
  let xsize : ℚ := (s.xmax : ℚ) - (s.xmin : ℚ) + 1
  let ysize : ℚ := (s.ymax : ℚ) - (s.ymin : ℚ) + 1
  let major := pb.a * rc.fwhm2cc
  let minor := pb.b * rc.fwhm2cc
  let major_min := major * (8 / 10)
  let major_max := max ((max xsize ysize + 1) * rc.sqrt2 * rc.fwhm2cc) (major * (11 / 10))
  let minor_min := minor * (8 / 10)
  let minor_max := max ((max xsize ysize + 1) * rc.sqrt2 * rc.fwhm2cc) (major * (11 / 10))
  let summit_flag :=
    if minor_min = minor_max ∨ major_min = major_max
    then base_flag ||| FIXED2PSF else base_flag
  let fixedShape := decide (0 < summit_flag &&& FIXED2PSF)
  [ { pname := .amp, value := amp, fixed := false,
      limits := (amp_min, amp_max), limited := (true, true), pflags := none },
    { pname := .xo, value := (xo : ℚ), fixed := false,
      limits := xob, limited := (true, true), pflags := none },
    { pname := .yo, value := (yo : ℚ), fixed := false,
      limits := yob, limited := (true, true), pflags := none },
    { pname := .major, value := major, fixed := fixedShape,
      limits := (major_min, major_max), limited := (true, true),
      pflags := some summit_flag },
    { pname := .minor, value := minor, fixed := fixedShape,
      limits := (minor_min, minor_max), limited := (true, true),
      pflags := some summit_flag },
    { pname := .pa, value := pb.pa, fixed := fixedShape,
      limits := (-180, 180), limited := (false, false),
      pflags := some summit_flag } ]

/-- `estimate_parinfo` (aegean.py 416-568): island classification by finite
pixel count, summit extraction (whole island for tiny/1d islands, else the
segmenter run on the kappa-sigma map with a uniform unit rms and zero
clip), and the six parameter records per summit. -/
def estimate_parinfo (rc : RConsts) {w h : ℕ} (dat rms curve : Pix w h → Option ℚ)
    (innerclip : ℚ) (csigma : Option ℚ) (pb : PixBeam) : List ParRec :=
  let cs := csigma.getD 0
  let xo_lim := max (pb.a * rc.cosd pb.pa) (pb.b * rc.sind pb.pa)
  let yo_lim := max (pb.a * rc.sind pb.pa) (pb.b * rc.cosd pb.pa)
  let non_nan_pix := countFinite dat
  let is_flag :=
    if 4 ≤ non_nan_pix ∧ non_nan_pix ≤ 6 then FIXED2PSF
    else if non_nan_pix < 4 then FITERRSMALL else 0
  let sp :=
    if min w h ≤ 2 ∨ is_flag &&& FITERRSMALL ≠ 0 then
      ([dataSummit dat], is_flag ||| FIXED2PSF)
    else
      let kappa : Pix w h → ℚ := fun p =>
        match curve p, dat p, rms p with
        | some c, some v, some r =>
          if c < -cs then (if 0 < v - innerclip * r then v else -1) else -1
        | _, _, _ => -1
      ((gen_flood_wrap (fun p => some (kappa p)) (fun _ => some 1) 0 0).map
        (summitOfIsle kappa), is_flag)
  (sp.1).flatMap (summitParinfo rc (fun x y => gridAt rms x y) pb xo_lim yo_lim sp.2)

/-- The guard at the head of `fit_island` (aegean.py 1044-1051): with fewer
than one summit (`len(parinfo)/6 < 1`) the island is skipped and the empty
source list returned; otherwise processing continues (`cont`). -/
def fit_island_front {α : Type} (parinfo : List ParRec)
    (cont : List ParRec → List α) : List α :=
  if parinfo.length / 6 < 1 then [] else cont parinfo

/-- C5 (code bug evidence): the x centre bounds are clipped to the summit
box (`max`/`min`), but the y centre bounds of the source use `min(ymin, .)`
and `max(ymax, .)` — expanding past the box instead of clipping to it. At
`ymin = 0, ymax = 4, yo = 2, lim = 10` the source yields `(-8, 12)` where
the spec's clipping yields `(0, 4)`. -/
theorem c5_centre_bounds_divergence :
    xoBounds 0 4 2 10 = (0, 4)
    ∧ yoBounds 0 4 2 10 = (-8, 12)
    ∧ yoBoundsSpec 0 4 2 10 = (0, 4)
    ∧ yoBounds 0 4 2 10 ≠ yoBoundsSpec 0 4 2 10 := by
  refine ⟨?_, ?_, ?_, ?_⟩ <;> norm_num [xoBounds, yoBounds, yoBoundsSpec, Prod.ext_iff]

/-- Helper: with no seed pixels the segmenter yields no islands. -/
theorem gen_flood_wrap_nil {w h : ℕ} (dat rms : Pix w h → Option ℚ) (ic oc : ℚ)
    (hs : sortedSeeds dat rms ic = []) : gen_flood_wrap dat rms ic oc = [] := by
  rw [gen_flood_wrap, hs]
  rfl

/-- C10: when parameter estimation yields no candidate Gaussian
(`parinfo = []`, as happens when the curvature cut removes every summit),
`fit_island` returns the empty list — the island contributes nothing and
the (total) function raises no exception, whatever the rest of the
processing (`cont`) would do. -/
theorem c10_empty_parinfo_no_sources (rc : RConsts) {w h : ℕ}
    (dat rms curve : Pix w h → Option ℚ) (ic : ℚ) (cs : Option ℚ) (pb : PixBeam)
    {α : Type} (cont : List ParRec → List α)
    (hempty : estimate_parinfo rc dat rms curve ic cs pb = []) :
    fit_island_front (estimate_parinfo rc dat rms curve ic cs pb) cont = [] := by
  rw [hempty]
  simp [fit_island_front]

/-- Witness for C10 at a concrete 3x3 island whose curvature is everywhere
above `-csigma`: the kappa-sigma map is all `-1`, the segmenter finds no
summit, `estimate_parinfo` is empty and `fit_island` returns no sources. -/
theorem c10_empty_parinfo_eval :
    estimate_parinfo rcEval (fun _ : Pix 3 3 => some 1) (fun _ => some 1)
      (fun _ => some 1) 5 none ⟨1, 1, 0⟩ = []
    ∧ fit_island_front
        (estimate_parinfo rcEval (fun _ : Pix 3 3 => some 1) (fun _ => some 1)
          (fun _ => some 1) 5 none ⟨1, 1, 0⟩)
        (fun l => List.replicate l.length (0 : ℕ)) = [] := by
  have hcf : countFinite (fun _ : Pix 3 3 => some (1 : ℚ)) = 9 := by decide
  have hp : seedPairs (fun _ : Pix 3 3 => some (-1 : ℚ)) (fun _ => some 1) 0 = [] := by
    rw [seedPairs]
    apply List.filterMap_eq_nil_iff.mpr
    intro p _
    norm_num
  have hs : sortedSeeds (fun _ : Pix 3 3 => some (-1 : ℚ)) (fun _ => some 1) 0 = [] := by
    rw [sortedSeeds, hp]
    rfl
  have hw := gen_flood_wrap_nil (fun _ : Pix 3 3 => some (-1 : ℚ)) (fun _ => some 1) 0 0 hs
  have he : estimate_parinfo rcEval (fun _ : Pix 3 3 => some 1) (fun _ => some 1)
      (fun _ => some 1) 5 none ⟨1, 1, 0⟩ = [] := by
    simp only [estimate_parinfo, hcf]
    norm_num [hw]
  exact ⟨he, c10_empty_parinfo_no_sources rcEval (fun _ : Pix 3 3 => some 1)
    (fun _ => some 1) (fun _ => some 1) 5 none ⟨1, 1, 0⟩
    (fun l => List.replicate l.length (0 : ℕ)) he⟩
